import Mathlib

/-!
# Verification of the sarabanda audio-visualization core

Shallow embedding of `src/song.py` and `src/visualizers.py`.

* `WavSong` (`src/song.py`) is modelled by `WavSongState`: the chunk list
  `_data` (each chunk a list of signed 16-bit sample values, as produced by
  `np.frombuffer(chunk, np.int16)`), the cursor `_index`, and the stream flag
  (`_stream is not None`).  The per-chunk feature lists `_pow` and `_fft` are
  filled at construction time and never mutated afterwards, so they are
  modelled as the functions `wavPow` / `wavFft` of the same chunk list rather
  than as mutable fields; this keeps the transport state machine computable.
* `SongPair` (`src/song.py`) is a pair of `WavSongState`s with the combined
  device-pull callback.
* The visualizers (`src/visualizers.py`) are modelled over `ℚ`
  (`BarVizState`) and `ℝ` (`RingVizState`); each `draw` returns the new
  instance state together with the line segments handed to
  `pygame.draw.line`.
* Machine integers: the Python ints involved never overflow (they are plain
  Python ints), so `ℤ`/`ℕ` are used directly; numpy float arithmetic is
  modelled over `ℝ` (or `ℚ` where the code is exact rational arithmetic).
-/

set_option autoImplicit false

namespace Sarabanda

/-- `WavSong.CHUNK = 1024` (`src/song.py`). -/
def CHUNK : ℕ := 1024

/-- `RMS_POWER_CLIP = 10000` (`src/song.py`). -/
def RMS_POWER_CLIP : ℝ := 10000

/-! ## Spectral feature extractor (`normalized_fft`, `rms_power`) -/

/-- One bin of `scipy.fft.rfft` on the int16 samples of a chunk:
`X_k = Σ_n x_n · exp(-2πi·k·n/N)`. -/
noncomputable def dftBin (x : List ℤ) (k : ℕ) : ℂ :=
  ∑ n ∈ Finset.range x.length,
    ((x.getD n 0 : ℤ) : ℂ) *
      Complex.exp (-2 * Real.pi * Complex.I * k * n / x.length)

/-- `np.abs(rfft(np.frombuffer(samples, np.int16)))`: the magnitudes of the
real-input DFT; `rfft` of `N` samples yields `N/2 + 1` bins. -/
noncomputable def rfftMag (x : List ℤ) : List ℝ :=
  (List.range (x.length / 2 + 1)).map fun k => Complex.abs (dftBin x k)

/-- `np.linalg.norm`: the Euclidean norm of a vector. -/
noncomputable def l2norm (l : List ℝ) : ℝ :=
  Real.sqrt ((l.map fun v => v ^ 2).sum)

/-- The zero-padding step of `normalized_fft`:
`if fft.shape[0] < pad: fft = np.concatenate((fft, [0] * (pad - len)))`. -/
noncomputable def paddedMag (samples : List ℤ) (pad : ℕ) : List ℝ :=
  if (rfftMag samples).length < pad
  then rfftMag samples ++ List.replicate (pad - (rfftMag samples).length) 0
  else rfftMag samples

/-- `normalized_fft(samples, pad)` (`src/song.py`): DFT magnitudes, padded on
the right to at least `pad` bins, divided by the Euclidean norm with the
`(norm or 1)` guard against a zero norm. -/
noncomputable def normalized_fft (samples : List ℤ) (pad : ℕ) : List ℝ :=
  (paddedMag samples pad).map fun v =>
    v / (if l2norm (paddedMag samples pad) = 0 then 1 else l2norm (paddedMag samples pad))

/-- `np.clip(x, lo, hi)` = `min hi (max x lo)`. -/
def npClip (x lo hi : ℝ) : ℝ := min (max x lo) hi

/-- `rms_power(samples)` (`src/song.py`): root mean square of the int16
samples, clipped to `[0, RMS_POWER_CLIP]` and divided by `RMS_POWER_CLIP`. -/
noncomputable def rms_power (samples : List ℤ) : ℝ :=
  npClip (Real.sqrt ((samples.map fun s : ℤ => (s : ℝ) ^ 2).sum / samples.length))
    0 RMS_POWER_CLIP / RMS_POWER_CLIP

/-! ## `WavSong` transport state machine -/

/-- The mutable part of a `WavSong`: the decoded chunk list (`_data`, the
final element being the sentinel), the cursor `_index`, and whether an output
stream is open (`_stream is not None`). -/
structure WavSongState where
  data : List (List ℤ)
  index : ℕ
  stream : Bool
  deriving DecidableEq, Repr

/-- `WavSong.__init__` given the non-empty chunks decoded from the wave file:
appends the sentinel chunk (`self._data.append("")` — an *empty* buffer). -/
def mkWavSong (chunks : List (List ℤ)) : WavSongState :=
  { data := chunks ++ [[]], index := 0, stream := false }

/-- The `_pow` list built by `WavSong.__init__`: `rms_power` of every decoded
chunk, then the sentinel entry `0`.  Immutable after construction. -/
noncomputable def wavPow (chunks : List (List ℤ)) : List ℝ :=
  chunks.map rms_power ++ [0]

/-- The `_fft` list built by `WavSong.__init__`: `normalized_fft(chunk, CHUNK // 2)`
of every decoded chunk, then the sentinel entry `np.array([0] * CHUNK)` (note:
`CHUNK` zeros, not `CHUNK // 2`).  Immutable after construction. -/
noncomputable def wavFft (chunks : List (List ℤ)) : List (List ℝ) :=
  chunks.map (fun c => normalized_fft c (CHUNK / 2)) ++ [List.replicate CHUNK 0]

namespace WavSongState

/-- `WavSong.next`: `if self._index < len(self._data) - 1: self._index += 1`. -/
def next (s : WavSongState) : WavSongState :=
  if s.index < s.data.length - 1 then { s with index := s.index + 1 } else s

/-- `WavSong.play`: no-op when `self._stream is not None`; otherwise resets
the cursor to `0` and opens the output stream. -/
def play (s : WavSongState) : WavSongState :=
  if s.stream then s else { s with index := 0, stream := true }

/-- `WavSong.stop`: closes the stream when open (`self._stream = None`). -/
def stop (s : WavSongState) : WavSongState :=
  { s with stream := false }

/-- `WavSong.reset`: `self.stop()` then `self._index = 0`. -/
def reset (s : WavSongState) : WavSongState :=
  { s.stop with index := 0 }

/-- The device-pull callback registered by `WavSong.play`: reads `self.data`
then calls `self.next()`; only `next` mutates the state. -/
def pull (s : WavSongState) : WavSongState :=
  s.next

/-- The current-chunk read `WavSong.data` (`self._data[self._index]`). -/
def currentData (s : WavSongState) : List ℤ :=
  s.data.getD s.index []

/-- The current-power read `WavSong.power` (`self._pow[self._index]`), the
feature lists being a function of the constructing chunk list. -/
noncomputable def currentPower (chunks : List (List ℤ)) (s : WavSongState) : ℝ :=
  (wavPow chunks).getD s.index 0

/-- The current-spectrum read `WavSong.fft` (`self._fft[self._index]`). -/
noncomputable def currentFft (chunks : List (List ℤ)) (s : WavSongState) : List ℝ :=
  (wavFft chunks).getD s.index []

end WavSongState

/-- The public operations of a `WavSong`; the three reads (`data`, `power`,
`fft`) acquire the lock and read but never mutate the state. -/
inductive WOp where
  | next | play | stop | reset | readData | readPower | readFft
  deriving DecidableEq, Repr

/-- Effect of one public operation on the `WavSong` state. -/
def applyW (op : WOp) (s : WavSongState) : WavSongState :=
  match op with
  | .next => s.next
  | .play => s.play
  | .stop => s.stop
  | .reset => s.reset
  | .readData | .readPower | .readFft => s

/-- Effect of a sequence of public operations, first operation first. -/
def applyWs (ops : List WOp) (s : WavSongState) : WavSongState :=
  ops.foldl (fun t op => applyW op t) s

/-! ### Cursor invariant lemmas -/

theorem applyW_data (op : WOp) (s : WavSongState) :
    (applyW op s).data = s.data := by
  cases op <;>
    simp [applyW, WavSongState.next, WavSongState.play, WavSongState.stop,
      WavSongState.reset] <;>
    split <;> rfl

theorem applyW_index_lt (op : WOp) (s : WavSongState)
    (h : s.index < s.data.length) :
    (applyW op s).index < (applyW op s).data.length := by
  rw [applyW_data]
  cases op with
  | next =>
      simp only [applyW, WavSongState.next]
      split
      · show s.index + 1 < s.data.length
        omega
      · exact h
  | play =>
      simp only [applyW, WavSongState.play]
      split
      · exact h
      · show 0 < s.data.length
        omega
  | stop => exact h
  | reset =>
      show 0 < s.data.length
      omega
  | readData => exact h
  | readPower => exact h
  | readFft => exact h

theorem applyWs_data (ops : List WOp) (s : WavSongState) :
    (applyWs ops s).data = s.data := by
  induction ops generalizing s with
  | nil => rfl
  | cons op ops ih =>
      simp only [applyWs, List.foldl_cons] at *
      rw [ih, applyW_data]

theorem applyWs_index_lt (ops : List WOp) (s : WavSongState)
    (h : s.index < s.data.length) :
    (applyWs ops s).index < (applyWs ops s).data.length := by
  induction ops generalizing s with
  | nil => exact h
  | cons op ops ih =>
      simp only [applyWs, List.foldl_cons] at *
      exact ih _ (applyW_index_lt op s h)

theorem mkWavSong_index_lt (chunks : List (List ℤ)) :
    (mkWavSong chunks).index < (mkWavSong chunks).data.length := by
  simp [mkWavSong]

theorem next_index_min (s : WavSongState) (h : s.index < s.data.length) :
    s.next.index = min (s.index + 1) (s.data.length - 1) := by
  simp only [WavSongState.next]
  split
  · show s.index + 1 = min (s.index + 1) (s.data.length - 1)
    omega
  · show s.index = min (s.index + 1) (s.data.length - 1)
    omega

/-- **C1.** For every `WavSong` constructed from a wave file, after any
sequence of public operations (`data`/`power`/`fft` reads, `next`, `play`,
`stop`, `reset`) the cursor satisfies `index < len(data)` (with `index : ℕ`,
so `0 ≤ index` holds by type); one further `next` clamps the cursor at
`len(data) - 1` (`next.index = min (index + 1) (len - 1)`), and no operation
other than `play` and `reset` ever decreases the cursor — in particular the
cursor never wraps back to `0` except through `play` or `reset`. -/
theorem wavSong_cursor_invariant (chunks : List (List ℤ)) (ops : List WOp) :
    (applyWs ops (mkWavSong chunks)).index
        < (applyWs ops (mkWavSong chunks)).data.length
    ∧ (applyWs ops (mkWavSong chunks)).next.index
        = min ((applyWs ops (mkWavSong chunks)).index + 1)
            ((applyWs ops (mkWavSong chunks)).data.length - 1)
    ∧ ∀ op : WOp, op ≠ .play → op ≠ .reset →
        (applyWs ops (mkWavSong chunks)).index
          ≤ (applyW op (applyWs ops (mkWavSong chunks))).index := by
  have hinv := applyWs_index_lt ops (mkWavSong chunks) (mkWavSong_index_lt chunks)
  refine ⟨hinv, next_index_min _ hinv, ?_⟩
  intro op hp hr
  set s := applyWs ops (mkWavSong chunks) with hs
  cases op with
  | next =>
      simp only [applyW, WavSongState.next]
      split
      · show s.index ≤ s.index + 1
        omega
      · exact Nat.le_refl _
  | play => exact absurd rfl hp
  | reset => exact absurd rfl hr
  | stop => exact Nat.le_refl _
  | readData => exact Nat.le_refl _
  | readPower => exact Nat.le_refl _
  | readFft => exact Nat.le_refl _

/-- Witness for `wavSong_cursor_invariant` at a concrete song and operation
trace, discharging the `op ≠ play`, `op ≠ reset` hypotheses at `op = next`. -/
theorem wavSong_cursor_invariant_witness :
    WOp.next ≠ WOp.play ∧ WOp.next ≠ WOp.reset ∧
      (applyWs [WOp.play, WOp.next, WOp.next] (mkWavSong [[1], [2]])).index
        ≤ (applyW WOp.next
            (applyWs [WOp.play, WOp.next, WOp.next] (mkWavSong [[1], [2]]))).index :=
  ⟨by decide, by decide,
    (wavSong_cursor_invariant [[1], [2]] [WOp.play, WOp.next, WOp.next]).2.2
      WOp.next (by decide) (by decide)⟩

/-! ### Iterated `next` -/

theorem next_data (s : WavSongState) : s.next.data = s.data := by
  simp only [WavSongState.next]
  split <;> rfl

theorem next_iter_data (n : ℕ) (s : WavSongState) :
    (WavSongState.next^[n] s).data = s.data := by
  induction n generalizing s with
  | zero => rfl
  | succ n ih => rw [Function.iterate_succ_apply, ih, next_data]

theorem next_index_lt (s : WavSongState) (h : s.index < s.data.length) :
    s.next.index < s.next.data.length :=
  applyW_index_lt .next s h

theorem next_iter_index (n : ℕ) (s : WavSongState)
    (h : s.index < s.data.length) :
    (WavSongState.next^[n] s).index = min (s.index + n) (s.data.length - 1) := by
  induction n generalizing s with
  | zero => simp; omega
  | succ n ih =>
      rw [Function.iterate_succ_apply, ih s.next (next_index_lt s h),
        next_data, next_index_min s h]
      omega

theorem mkWavSong_data_length (chunks : List (List ℤ)) :
    (mkWavSong chunks).data.length = chunks.length + 1 := by
  simp [mkWavSong]

theorem mkWavSong_index (chunks : List (List ℤ)) :
    (mkWavSong chunks).index = 0 := rfl

/-- **C5.** Starting from the freshly constructed cursor `0`, calling
`next` (advance) `len(chunks) + k` times leaves the cursor at
`len(chunks) - 1` for every `k ≥ 0` (here `len(chunks)` is the full list
including the sentinel, i.e. `chunks.length + 1`).  In particular for a track
of 3 real chunks plus the sentinel at index 3, four (or more) `next` calls
leave the cursor at `3` and every subsequent `currentPower` read returns `0`. -/
theorem wavSong_advance_clamps (chunks : List (List ℤ)) (k : ℕ)
    (c0 c1 c2 : List ℤ) (m : ℕ) :
    (WavSongState.next^[chunks.length + 1 + k] (mkWavSong chunks)).index
        = chunks.length
    ∧ (WavSongState.next^[4 + m] (mkWavSong [c0, c1, c2])).index = 3
    ∧ (WavSongState.next^[4 + m] (mkWavSong [c0, c1, c2])).currentPower
        [c0, c1, c2] = 0 := by
  have h1 := next_iter_index (chunks.length + 1 + k) (mkWavSong chunks)
    (mkWavSong_index_lt chunks)
  rw [mkWavSong_data_length, mkWavSong_index] at h1
  have h2 := next_iter_index (4 + m) (mkWavSong [c0, c1, c2])
    (mkWavSong_index_lt [c0, c1, c2])
  rw [mkWavSong_data_length, mkWavSong_index] at h2
  simp only [List.length_cons, List.length_nil] at h2
  have hidx : (WavSongState.next^[4 + m] (mkWavSong [c0, c1, c2])).index = 3 := by
    rw [h2]; omega
  refine ⟨by rw [h1]; omega, hidx, ?_⟩
  simp [WavSongState.currentPower, hidx, wavPow, List.getD_append_right]

/-! ## `SongPair` (base + vocals) -/

/-- The state of a `SongPair`: the base song and the vocals song. -/
structure SongPairState where
  base : WavSongState
  vocals : WavSongState
  deriving DecidableEq, Repr

/-- `SongPair.__init__`: both songs are loaded from their wave files. -/
def mkSongPair (baseChunks vocalChunks : List (List ℤ)) : SongPairState :=
  { base := mkWavSong baseChunks, vocals := mkWavSong vocalChunks }

namespace SongPairState

/-- `SongPair.play`: delegates to `self._base_song.play(...)` with the custom
callback, so only the base song's output device is (possibly) opened and only
the base song's cursor is (possibly) reset; the vocals state is untouched. -/
def play (p : SongPairState) : SongPairState :=
  { p with base := p.base.play }

/-- One invocation of the custom callback registered by `SongPair.play`:
reads `self._base_song.data` then advances *both* songs. -/
def pull (p : SongPairState) : SongPairState :=
  { base := p.base.next, vocals := p.vocals.next }

/-- `SongPair.next`: advances both songs. -/
def next (p : SongPairState) : SongPairState :=
  { base := p.base.next, vocals := p.vocals.next }

/-- `SongPair.stop`: stops the base song and *resets* the vocals song. -/
def stop (p : SongPairState) : SongPairState :=
  { base := p.base.stop, vocals := p.vocals.reset }

/-- `SongPair.reset`: `self.stop()` then `self._base_song.reset()`. -/
def reset (p : SongPairState) : SongPairState :=
  { base := p.stop.base.reset, vocals := p.stop.vocals }

end SongPairState

theorem pull_iter (n : ℕ) (p : SongPairState) :
    SongPairState.pull^[n] p
      = { base := WavSongState.next^[n] p.base,
          vocals := WavSongState.next^[n] p.vocals } := by
  induction n generalizing p with
  | zero => rfl
  | succ n ih => rw [Function.iterate_succ_apply, ih]; rfl

/-- **C6.** After `SongPair.play()` on a freshly constructed pair, each
device pull advances both the base and the vocals cursor by one, so after
three pulls both cursors are equal and advanced by exactly 3 (both songs
having at least 3 real chunks, i.e. at least 4 chunks with the sentinel),
while only the base song's output stream is open. -/
theorem songPair_play_three_pulls (bc vc : List (List ℤ))
    (hb : 3 ≤ bc.length) (hv : 3 ≤ vc.length) :
    ((mkSongPair bc vc).play).base.stream = true
    ∧ ((mkSongPair bc vc).play).vocals.stream = false
    ∧ ((mkSongPair bc vc).play).base.index = 0
    ∧ ((mkSongPair bc vc).play).vocals.index = 0
    ∧ ∀ n : ℕ, n ≤ 3 →
        (SongPairState.pull^[n] ((mkSongPair bc vc).play)).base.index = n
        ∧ (SongPairState.pull^[n] ((mkSongPair bc vc).play)).vocals.index = n := by
  have hplay : (mkSongPair bc vc).play
      = { base := { data := bc ++ [[]], index := 0, stream := true },
          vocals := mkWavSong vc } := rfl
  rw [hplay]
  refine ⟨rfl, rfl, rfl, rfl, ?_⟩
  intro n hn
  rw [pull_iter]
  constructor
  · rw [next_iter_index n _ (by simp)]
    simp only [List.length_append, List.length_cons, List.length_nil]
    omega
  · rw [next_iter_index n _ (mkWavSong_index_lt vc), mkWavSong_data_length,
      mkWavSong_index]
    omega

/-- Witness for `songPair_play_three_pulls` on two concrete 3-chunk songs. -/
theorem songPair_play_three_pulls_witness :
    (3 ≤ [[(1 : ℤ)], [2], [3]].length ∧ (3 : ℕ) ≤ 3) ∧
      (SongPairState.pull^[3]
          ((mkSongPair [[(1 : ℤ)], [2], [3]] [[(4 : ℤ)], [5], [6]]).play)).base.index = 3
      ∧ (SongPairState.pull^[3]
          ((mkSongPair [[(1 : ℤ)], [2], [3]] [[(4 : ℤ)], [5], [6]]).play)).vocals.index = 3 :=
  ⟨⟨by decide, by decide⟩,
    (songPair_play_three_pulls [[(1 : ℤ)], [2], [3]] [[(4 : ℤ)], [5], [6]]
      (by decide) (by decide)).2.2.2.2 3 (by decide)⟩

/-- **C7.** `WavSong.play` on a song whose stream is already open is a
complete no-op (the whole state, cursor included, is unchanged); `play` on a
stopped song resets the cursor to `0`, opens the stream, and leaves the chunk
data unchanged. -/
theorem wavSong_play_idempotent (s : WavSongState) :
    (s.stream = true → s.play = s)
    ∧ (s.stream = false →
        s.play.index = 0 ∧ s.play.stream = true ∧ s.play.data = s.data) := by
  constructor
  · intro h
    simp [WavSongState.play, h]
  · intro h
    simp [WavSongState.play, h]

/-- Witness for `wavSong_play_idempotent`: a concrete playing song (play is
a no-op) and a concrete stopped song (play rewinds the cursor and opens the
stream). -/
theorem wavSong_play_idempotent_witness :
    (((mkWavSong [[7]]).play).stream = true
      ∧ ((mkWavSong [[7]]).play).play = (mkWavSong [[7]]).play)
    ∧ ((mkWavSong [[7]]).stream = false
      ∧ ((mkWavSong [[7]]).play).index = 0
      ∧ ((mkWavSong [[7]]).play).stream = true) :=
  ⟨⟨by decide, (wavSong_play_idempotent ((mkWavSong [[7]]).play)).1 (by decide)⟩,
    ⟨by decide,
      ((wavSong_play_idempotent (mkWavSong [[7]])).2 (by decide)).1,
      ((wavSong_play_idempotent (mkWavSong [[7]])).2 (by decide)).2.1⟩⟩

/-- **C10.** `SongPair.play` never touches the vocals song (so its cursor is
unchanged); it resets the base cursor to `0` when the base is stopped;
`SongPair.stop` and `SongPair.reset` both return the vocals cursor to `0`;
and, when the base is stopped, the two cursors are equal right after `play`
iff the vocals cursor was already `0`. -/
theorem songPair_play_frame (p : SongPairState) :
    p.play.vocals = p.vocals
    ∧ (p.base.stream = false → p.play.base.index = 0)
    ∧ p.stop.vocals.index = 0
    ∧ p.reset.vocals.index = 0
    ∧ (p.base.stream = false →
        (p.play.base.index = p.play.vocals.index ↔ p.vocals.index = 0)) := by
  have hbase : p.base.stream = false → p.play.base.index = 0 := by
    intro h
    simp [SongPairState.play, WavSongState.play, h]
  refine ⟨rfl, hbase, rfl, rfl, ?_⟩
  intro h
  rw [hbase h]
  show 0 = p.vocals.index ↔ p.vocals.index = 0
  exact eq_comm

/-- Witness for `songPair_play_frame` on a concrete freshly loaded pair with
a stopped base. -/
theorem songPair_play_frame_witness :
    (mkSongPair [[1]] [[2]]).base.stream = false
    ∧ ((mkSongPair [[1]] [[2]]).play.base.index
          = (mkSongPair [[1]] [[2]]).play.vocals.index
        ↔ (mkSongPair [[1]] [[2]]).vocals.index = 0) :=
  ⟨by decide, (songPair_play_frame (mkSongPair [[1]] [[2]])).2.2.2.2 (by decide)⟩

/-! ## Feature-list shapes: the sentinel (C2) -/

theorem rfftMag_length (x : List ℤ) :
    (rfftMag x).length = x.length / 2 + 1 := by
  simp [rfftMag]

theorem paddedMag_length (samples : List ℤ) (pad : ℕ) :
    (paddedMag samples pad).length = max (samples.length / 2 + 1) pad := by
  unfold paddedMag
  split
  · next h =>
      simp only [List.length_append, List.length_replicate, rfftMag_length] at h ⊢
      omega
  · next h =>
      simp only [rfftMag_length] at h ⊢
      omega

theorem normalized_fft_length (samples : List ℤ) (pad : ℕ) :
    (normalized_fft samples pad).length = max (samples.length / 2 + 1) pad := by
  simp only [normalized_fft, List.length_map, paddedMag_length]

/-- **C2, counterexample.** For the one-chunk song built from `[[1]]`, the
sentinel appended by `WavSong.__init__` has a spectrum of `CHUNK = 1024`
zeros, not `CHUNK / 2 = 512`, and its data buffer is *empty*, not a
full-length silent chunk. -/
theorem wavSong_sentinel_counterexample :
    ((wavFft [[1]]).getD 1 []).length ≠ CHUNK / 2
    ∧ ((mkWavSong [[1]]).data.getD 1 []).length ≠ CHUNK := by
  constructor
  · have h1 : (wavFft [[1]]).getD 1 [] = List.replicate CHUNK 0 := by
      unfold wavFft
      simp only [List.map_cons, List.map_nil, List.cons_append,
        List.nil_append, List.getD_cons_succ, List.getD_cons_zero]
    rw [h1, List.length_replicate]
    decide
  · have h2 : (mkWavSong [[1]]).data.getD 1 [] = [] := by
      unfold mkWavSong
      simp only [List.cons_append, List.nil_append, List.getD_cons_succ,
        List.getD_cons_zero]
    rw [h2, List.length_nil]
    decide

/-- **C2, amended.** Construction appends exactly one synthetic sentinel:
its data buffer is empty, its power entry is `0`, and its spectrum entry is
`CHUNK` (1024) zeros; the data, power and spectrum lists stay index-aligned
with length `chunks.length + 1`; every *real* chunk's spectrum has length
`max (n / 2 + 1) (CHUNK / 2)` — at least `CHUNK / 2` bins, but not a uniform
length of exactly `CHUNK / 2`. -/
theorem wavSong_sentinel (chunks : List (List ℤ)) :
    (mkWavSong chunks).data = chunks ++ [[]]
    ∧ (wavPow chunks).length = chunks.length + 1
    ∧ (wavFft chunks).length = chunks.length + 1
    ∧ (wavPow chunks).getD chunks.length 0 = 0
    ∧ (wavFft chunks).getD chunks.length [] = List.replicate CHUNK 0
    ∧ ∀ c ∈ chunks,
        (normalized_fft c (CHUNK / 2)).length = max (c.length / 2 + 1) (CHUNK / 2)
        ∧ CHUNK / 2 ≤ (normalized_fft c (CHUNK / 2)).length := by
  refine ⟨rfl, by simp [wavPow], by simp [wavFft], ?_, ?_, ?_⟩
  · simp [wavPow, List.getD_append_right]
  · simp [wavFft, List.getD_append_right]
  · intro c _
    rw [normalized_fft_length]
    omega

/-- Witness for `wavSong_sentinel`, discharging the chunk-membership
hypothesis on a concrete one-chunk song. -/
theorem wavSong_sentinel_witness :
    [(5 : ℤ)] ∈ [[(5 : ℤ)]]
    ∧ CHUNK / 2 ≤ (normalized_fft [(5 : ℤ)] (CHUNK / 2)).length :=
  ⟨by decide, ((wavSong_sentinel [[(5 : ℤ)]]).2.2.2.2.2 [(5 : ℤ)] (by decide)).2⟩

/-! ## `rms_power` (C4) -/

theorem rms_power_in_unit (samples : List ℤ) :
    0 ≤ rms_power samples ∧ rms_power samples ≤ 1 := by
  unfold rms_power npClip RMS_POWER_CLIP
  constructor
  · apply div_nonneg _ (by norm_num)
    exact le_min (le_max_right _ _) (by norm_num)
  · rw [div_le_one (by norm_num)]
    exact min_le_right _ _

/-- **C4.** For every non-empty chunk, `rms_power` (root mean square of the
int16 samples, clipped to `[0, 10000]`, divided by `10000`) lies in `[0, 1]`,
and it is exactly `0` on an all-zero chunk. -/
theorem rms_power_spec (samples : List ℤ) (_h : samples ≠ []) :
    0 ≤ rms_power samples ∧ rms_power samples ≤ 1
    ∧ ((∀ s ∈ samples, s = 0) → rms_power samples = 0) := by
  refine ⟨(rms_power_in_unit samples).1, (rms_power_in_unit samples).2, ?_⟩
  intro hz
  unfold rms_power npClip RMS_POWER_CLIP
  have hsum : (samples.map fun s : ℤ => (s : ℝ) ^ 2).sum = 0 := by
    apply List.sum_eq_zero
    intro x hx
    rcases List.mem_map.mp hx with ⟨t, ht, rfl⟩
    rw [hz t ht]
    norm_num
  rw [hsum]
  simp

/-- Witness for `rms_power_spec` on the concrete all-zero chunk `[0]`. -/
theorem rms_power_spec_witness :
    ([(0 : ℤ)] ≠ [] ∧ ∀ s ∈ [(0 : ℤ)], s = 0) ∧ rms_power [(0 : ℤ)] = 0 :=
  ⟨⟨by decide, by decide⟩,
    (rms_power_spec [(0 : ℤ)] (by decide)).2.2 (by decide)⟩

/-! ## `normalized_fft` normalization (C3) -/

theorem sum_sq_nonneg (l : List ℝ) : 0 ≤ (l.map fun v => v ^ 2).sum := by
  induction l with
  | nil => simp
  | cons a l ih =>
      simp only [List.map_cons, List.sum_cons]
      exact add_nonneg (sq_nonneg a) ih

theorem l2norm_nonneg (l : List ℝ) : 0 ≤ l2norm l :=
  Real.sqrt_nonneg _

theorem sum_sq_eq_zero_iff (l : List ℝ) :
    (l.map fun v => v ^ 2).sum = 0 ↔ ∀ v ∈ l, v = 0 := by
  induction l with
  | nil => simp
  | cons a l ih =>
      simp only [List.map_cons, List.sum_cons]
      rw [add_eq_zero_iff_of_nonneg (sq_nonneg a) (sum_sq_nonneg l), ih]
      constructor
      · rintro ⟨ha, hl⟩ v hv
        rcases List.mem_cons.mp hv with rfl | hv'
        · exact (pow_eq_zero_iff (by norm_num)).mp ha
        · exact hl v hv'
      · intro h
        refine ⟨?_, fun v hv => h v (List.mem_cons_of_mem a hv)⟩
        rw [h a (List.mem_cons_self a l)]
        norm_num

theorem l2norm_eq_zero_iff (l : List ℝ) :
    l2norm l = 0 ↔ ∀ v ∈ l, v = 0 := by
  unfold l2norm
  rw [Real.sqrt_eq_zero']
  constructor
  · intro hle
    exact (sum_sq_eq_zero_iff l).mp (le_antisymm hle (sum_sq_nonneg l))
  · intro hz
    exact le_of_eq ((sum_sq_eq_zero_iff l).mpr hz)

theorem sum_sq_map_div (l : List ℝ) (c : ℝ) :
    ((l.map fun v => v / c).map fun v => v ^ 2).sum
      = (l.map fun v => v ^ 2).sum / c ^ 2 := by
  induction l with
  | nil => simp
  | cons a l ih =>
      simp only [List.map_cons, List.sum_cons, ih, div_pow, add_div]

theorem l2norm_normalize (l : List ℝ) (h : l2norm l ≠ 0) :
    l2norm (l.map fun v => v / l2norm l) = 1 := by
  have hS : (l.map fun v => v ^ 2).sum ≠ 0 := by
    intro h0
    apply h
    unfold l2norm
    rw [h0, Real.sqrt_zero]
  unfold l2norm at *
  rw [sum_sq_map_div, Real.sq_sqrt (sum_sq_nonneg l), div_self hS,
    Real.sqrt_one]

theorem mem_paddedMag_of_mem_rfftMag {samples : List ℤ} {pad : ℕ} {b : ℝ}
    (hb : b ∈ rfftMag samples) : b ∈ paddedMag samples pad := by
  unfold paddedMag
  split
  · exact List.mem_append_left _ hb
  · exact hb

/-- **C3.** `normalized_fft` right-pads the DFT magnitudes with zeros to at
least `pad` entries (total length `max (n / 2 + 1) pad`); when some DFT
magnitude is nonzero (nonzero spectral energy) the output has Euclidean norm
exactly `1`; and on an all-zero (silent) chunk the `(norm or 1)` guard makes
the output the all-zero vector of that length — total real arithmetic, no
NaN involved. -/
theorem normalized_fft_spec (samples : List ℤ) (pad : ℕ) :
    (normalized_fft samples pad).length = max (samples.length / 2 + 1) pad
    ∧ pad ≤ (normalized_fft samples pad).length
    ∧ ((∃ b ∈ rfftMag samples, b ≠ 0) →
        l2norm (normalized_fft samples pad) = 1)
    ∧ ((∀ s ∈ samples, s = 0) →
        normalized_fft samples pad
          = List.replicate (max (samples.length / 2 + 1) pad) 0) := by
  refine ⟨normalized_fft_length samples pad,
    by rw [normalized_fft_length]; omega, ?_, ?_⟩
  · rintro ⟨b, hb, hbne⟩
    have hmem : b ∈ paddedMag samples pad := mem_paddedMag_of_mem_rfftMag hb
    have hnorm : l2norm (paddedMag samples pad) ≠ 0 := by
      intro h0
      exact hbne ((l2norm_eq_zero_iff _).mp h0 b hmem)
    simp only [normalized_fft]
    rw [if_neg hnorm]
    exact l2norm_normalize _ hnorm
  · intro hz
    have hdft : ∀ k : ℕ, dftBin samples k = 0 := by
      intro k
      unfold dftBin
      apply Finset.sum_eq_zero
      intro n _
      have : samples.getD n 0 = 0 := by
        rcases Nat.lt_or_ge n samples.length with hlt | hge
        · rw [List.getD_eq_getElem _ _ hlt]
          exact hz _ (samples.getElem_mem hlt)
        · rw [List.getD_eq_default _ _ hge]
      rw [this]
      simp
    have hmag : ∀ w ∈ rfftMag samples, w = 0 := by
      intro w hw'
      rcases List.mem_map.mp hw' with ⟨k, _, rfl⟩
      rw [hdft k]
      simp
    have hpadded : ∀ w ∈ paddedMag samples pad, w = 0 := by
      intro w hw
      unfold paddedMag at hw
      split at hw
      · rcases List.mem_append.mp hw with hw' | hw'
        · exact hmag w hw'
        · exact List.eq_of_mem_replicate hw'
      · exact hmag w hw
    have hlen := normalized_fft_length samples pad
    rw [List.eq_replicate_iff]
    refine ⟨hlen, ?_⟩
    intro v hv
    simp only [normalized_fft] at hv
    rcases List.mem_map.mp hv with ⟨w, hw, rfl⟩
    rw [hpadded w hw, zero_div]

/-- Witness for `normalized_fft_spec`: the chunk `[1]` has nonzero spectral
energy (its DC bin is `1`) and yields a unit-norm spectrum; the silent chunk
`[0, 0]` yields the all-zero vector of length `max 2 3 = 3`. -/
theorem normalized_fft_spec_witness :
    (∃ b ∈ rfftMag [(1 : ℤ)], b ≠ 0)
    ∧ l2norm (normalized_fft [(1 : ℤ)] 0) = 1
    ∧ (∀ s ∈ ([0, 0] : List ℤ), s = 0)
    ∧ normalized_fft ([0, 0] : List ℤ) 3
        = List.replicate (max (([0, 0] : List ℤ).length / 2 + 1) 3) 0 := by
  have hdc : dftBin [(1 : ℤ)] 0 = 1 := by
    unfold dftBin
    simp
  have hE : ∃ b ∈ rfftMag [(1 : ℤ)], b ≠ 0 := by
    refine ⟨Complex.abs (dftBin [(1 : ℤ)] 0), ?_, ?_⟩
    · unfold rfftMag
      simp
    · rw [hdc]
      simp
  have hz : ∀ s ∈ ([0, 0] : List ℤ), s = 0 := by decide
  exact ⟨hE, (normalized_fft_spec [(1 : ℤ)] 0).2.2.1 hE, hz,
    (normalized_fft_spec ([0, 0] : List ℤ) 3).2.2.2 hz⟩

/-! ## Visualizers (`src/visualizers.py`) -/

/-- `np.arange(start, stop, step)` over the integers: `ceil((stop-start)/step)`
evenly spaced values starting at `start` (empty when the range is empty or
`step` is `0`). -/
def arange (start stop step : ℤ) : List ℤ :=
  (List.range
      (if 0 < step then ((stop - start).toNat + (step.toNat - 1)) / step.toNat
       else ((start - stop).toNat + ((-step).toNat - 1)) / (-step).toNat)).map
    fun i : ℕ => start + step * (i : ℤ)

/-- The state of a `BarVisualizer`: surface size, construction parameters,
the precomputed bar abscissae and baseline, and the persistent smoothed
spectrum `_fft`.  The color only tints the drawing and is omitted.  Exact
rational arithmetic models the numpy float arithmetic. -/
structure BarVizState where
  width : ℤ
  height : ℤ
  bands : ℕ
  line_width : ℤ
  max_line_length : ℚ
  smooth_factor : ℚ
  spacing : ℤ
  x_left : List ℤ
  x_right : List ℤ
  start_y : ℤ
  fft : List ℚ
  deriving DecidableEq, Repr

/-- `BarVisualizer.__init__`. -/
def mkBarVisualizer (width height : ℤ) (bands : ℕ) (line_width : ℤ)
    (max_line_length smooth_factor : ℚ) (spacing : ℤ) : BarVizState :=
  let graph_width := (bands : ℤ) * line_width + spacing * ((bands : ℤ) - 1)
  { width := width
    height := height
    bands := bands
    line_width := line_width
    max_line_length := max_line_length
    smooth_factor := smooth_factor
    spacing := spacing
    x_left := (arange 0 graph_width (spacing + line_width)).map
      fun x => x + spacing + line_width
    x_right := (arange width (width - graph_width) (-(spacing + line_width))).map
      fun x => x - spacing - line_width
    start_y := height - line_width
    fft := List.replicate bands 0 }

/-- `BarVisualizer.draw`: exponentially smooths the song's spectrum into
`_fft`, then returns the new state together with the two lists of segments
(`(start, end)` endpoint pairs, left graph and right graph) passed to
`pygame.draw.line`. -/
def barDraw (s : BarVizState) (songFft : List ℚ) :
    BarVizState × List ((ℚ × ℚ) × (ℚ × ℚ)) × List ((ℚ × ℚ) × (ℚ × ℚ)) :=
  let new_fft := (songFft.take s.bands).map fun v => v * s.max_line_length
  let fft := List.zipWith
    (fun nv ov => nv * (1 - s.smooth_factor) + ov * s.smooth_factor) new_fft s.fft
  let left := (List.range s.bands).map fun i =>
    ((((s.x_left.getD i 0 : ℤ) : ℚ), ((s.start_y : ℤ) : ℚ)),
     (((s.x_left.getD i 0 : ℤ) : ℚ), ((s.start_y : ℤ) : ℚ) - fft.getD i 0))
  let right := (List.range s.bands).map fun i =>
    ((((s.x_right.getD i 0 : ℤ) : ℚ), ((s.start_y : ℤ) : ℚ)),
     (((s.x_right.getD i 0 : ℤ) : ℚ), ((s.start_y : ℤ) : ℚ) - fft.getD i 0))
  ({ s with fft := fft }, left, right)

/-- **C8.** Each `BarVisualizer.draw` updates the persistent smoothed
spectrum by `fft = raw[:bands] * maxLineLength * (1 - α) + fft * α`; with
`bands = 4`, `smooth_factor = 0`, `max_line_length = 10` and input spectrum
`[1, 0, 1, 0]`, the drawn bars have heights exactly `[10, 0, 10, 0]`
(baseline y minus endpoint y) on both the left and the right side. -/
theorem barVisualizer_draw (s : BarVizState) (f : List ℚ) :
    (barDraw s f).1.fft
      = List.zipWith
          (fun nv ov => nv * (1 - s.smooth_factor) + ov * s.smooth_factor)
          ((f.take s.bands).map fun v => v * s.max_line_length) s.fft
    ∧ ((barDraw (mkBarVisualizer 800 600 4 5 10 0 1) [1, 0, 1, 0]).2.1.map
          fun seg => seg.1.2 - seg.2.2) = [10, 0, 10, 0]
    ∧ ((barDraw (mkBarVisualizer 800 600 4 5 10 0 1) [1, 0, 1, 0]).2.2.map
          fun seg => seg.1.2 - seg.2.2) = [10, 0, 10, 0] := by
  refine ⟨rfl, ?_, ?_⟩ <;>
    norm_num [barDraw, mkBarVisualizer, arange, List.range_succ,
      List.zipWith, List.getD]

/-- The state of a `RingVisualizer`: construction parameters, the per-band
angle array with its sine/cosine unit vectors, and the persistent smoothed
spectrum and power. -/
structure RingVizState where
  width : ℤ
  height : ℤ
  bands : ℕ
  line_width : ℤ
  max_line_length : ℝ
  smooth_factor : ℝ
  radius : ℝ
  max_radius : ℝ
  speed : ℝ
  step : ℝ
  angles : List ℝ
  y_unit : List ℝ
  x_unit : List ℝ
  fft : List ℝ
  pow : ℝ

/-- `np.arange` over the reals: `ceil((stop - start) / step)` values. -/
noncomputable def arangeR (start stop step : ℝ) : List ℝ :=
  (List.range (Int.toNat ⌈(stop - start) / step⌉)).map
    fun i : ℕ => start + step * (i : ℝ)

/-- `RingVisualizer.__init__`. -/
noncomputable def mkRingVisualizer (width height : ℤ) (bands : ℕ) (line_width : ℤ)
    (max_line_length smooth_factor radius max_radius speed : ℝ) : RingVizState :=
  let step := 2 * Real.pi / bands
  let angles := arangeR 0 (2 * Real.pi) step
  { width := width
    height := height
    bands := bands
    line_width := line_width
    max_line_length := max_line_length
    smooth_factor := smooth_factor
    radius := radius
    max_radius := max_radius
    speed := speed
    step := step
    angles := angles
    y_unit := angles.map Real.sin
    x_unit := angles.map Real.cos
    fft := List.replicate bands 0
    pow := 0 }

/-- Python's float `%` with a positive modulus of `360`, as in
`(self._angles + self._speed) % 360`. -/
noncomputable def wrap360 (x : ℝ) : ℝ := x - 360 * ⌊x / 360⌋

/-- Modelled from the claim's words only (for comparison with the code's
`wrap360`): reduction modulo one full turn, `x mod 2π`. -/
noncomputable def specWrapTwoPi (x : ℝ) : ℝ :=
  x - 2 * Real.pi * ⌊x / (2 * Real.pi)⌋

/-- `RingVisualizer.draw`: advances every angle by `speed` and wraps with
`% 360`, recomputes the unit vectors, exponentially smooths spectrum and
power, and returns the new state with the segments passed to
`pygame.draw.line`. -/
noncomputable def ringDraw (s : RingVizState) (songFft : List ℝ) (songPow : ℝ) :
    RingVizState × List ((ℝ × ℝ) × (ℝ × ℝ)) :=
  let angles := s.angles.map fun a => wrap360 (a + s.speed)
  let y_unit := angles.map Real.sin
  let x_unit := angles.map Real.cos
  let new_fft := (songFft.take s.bands).map fun v => v * s.max_line_length
  let fft := List.zipWith
    (fun nv ov => nv * (1 - s.smooth_factor) + ov * s.smooth_factor) new_fft s.fft
  let pow := songPow * (1 - s.smooth_factor) + s.pow * s.smooth_factor
  let radius := s.radius + (s.max_radius - s.radius) * pow
  let lines := (List.range s.bands).map fun i =>
    ((x_unit.getD i 0 * (fft.getD i 0 + radius) + (s.width : ℝ) / 2,
      y_unit.getD i 0 * (fft.getD i 0 + radius) + (s.height : ℝ) / 2),
     (x_unit.getD i 0 * (radius - fft.getD i 0) + (s.width : ℝ) / 2,
      y_unit.getD i 0 * (radius - fft.getD i 0) + (s.height : ℝ) / 2))
  ({ s with
      angles := angles
      y_unit := y_unit
      x_unit := x_unit
      fft := fft
      pow := pow }, lines)

theorem wrap360_eq_self {x : ℝ} (h0 : 0 ≤ x) (h1 : x < 360) : wrap360 x = x := by
  unfold wrap360
  have : ⌊x / 360⌋ = 0 := by
    rw [Int.floor_eq_zero_iff]
    constructor
    · positivity
    · rw [div_lt_one (by norm_num)]
      exact h1
  rw [this]
  ring

theorem mkRingVisualizer_one_band_angles :
    (mkRingVisualizer 800 600 1 10 100 (1/2) 100 200 7).angles = [0] := by
  have hstep : (mkRingVisualizer 800 600 1 10 100 (1/2) 100 200 7).angles
      = arangeR 0 (2 * Real.pi) (2 * Real.pi / ((1 : ℕ) : ℝ)) := rfl
  rw [hstep]
  unfold arangeR
  have hdiv : (2 * Real.pi - 0) / (2 * Real.pi / ((1 : ℕ) : ℝ)) = 1 := by
    rw [Nat.cast_one, div_one, sub_zero]
    exact div_self (by positivity)
  rw [hdiv]
  norm_num [List.range_succ]

/-- **C9, counterexample.** A one-band ring visualizer with angular speed `7`
starts with the angle array `[0]`; after one `draw` the code's angle is
`(0 + 7) % 360 = 7`, not `(0 + 7) mod 2π = 7 - 2π` as the claim's
"modulo one full turn (2π radians)" requires. -/
theorem ringVisualizer_angle_counterexample :
    (ringDraw (mkRingVisualizer 800 600 1 10 100 (1/2) 100 200 7) [] 0).1.angles
      ≠ [specWrapTwoPi (0 + 7)] := by
  have hspeed : (mkRingVisualizer 800 600 1 10 100 (1/2) 100 200 7).speed = 7 := rfl
  have hdraw : (ringDraw (mkRingVisualizer 800 600 1 10 100 (1/2) 100 200 7) [] 0).1.angles
      = List.map (fun a => wrap360 (a + 7))
          (mkRingVisualizer 800 600 1 10 100 (1/2) 100 200 7).angles := by
    simp only [ringDraw, hspeed]
  rw [hdraw, mkRingVisualizer_one_band_angles]
  simp only [List.map_cons, List.map_nil]
  have h360 : wrap360 (0 + 7) = (7 : ℝ) := by
    rw [zero_add]
    exact wrap360_eq_self (by norm_num) (by norm_num)
  have hfloor : ⌊(7 : ℝ) / (2 * Real.pi)⌋ = 1 := by
    rw [Int.floor_eq_iff]
    have hpi1 : Real.pi < 3.15 := Real.pi_lt_d2
    have hpi2 : 3 < Real.pi := Real.pi_gt_three
    constructor
    · rw [Int.cast_one, le_div_iff₀ (by positivity)]
      nlinarith
    · rw [Int.cast_one, div_lt_iff₀ (by positivity)]
      nlinarith
  have h2pi : specWrapTwoPi (0 + 7) = 7 - 2 * Real.pi := by
    unfold specWrapTwoPi
    rw [zero_add, hfloor]
    ring
  rw [h360, h2pi]
  intro hcontra
  have h7 : (7 : ℝ) = 7 - 2 * Real.pi := (List.cons.inj hcontra).1
  nlinarith [Real.pi_gt_three]

/-- **C9, amended.** Each `RingVisualizer.draw` advances every band angle by
exactly the configured `speed`, wrapped with `% 360` (the numeric value 360,
not one full turn of `2π`); the wrap is exact (no reduction) while the
accumulated angle stays in `[0, 360)`; the update is independent of the
track's audio content; and the drawn line directions are the sine/cosine of
exactly these wrapped angles. -/
theorem ringVisualizer_angle_update (s : RingVizState) (f1 f2 : List ℝ)
    (p1 p2 : ℝ) :
    (ringDraw s f1 p1).1.angles = s.angles.map (fun a => wrap360 (a + s.speed))
    ∧ (ringDraw s f1 p1).1.angles = (ringDraw s f2 p2).1.angles
    ∧ (∀ a ∈ s.angles, 0 ≤ a + s.speed → a + s.speed < 360 →
        wrap360 (a + s.speed) = a + s.speed)
    ∧ (ringDraw s f1 p1).1.x_unit = ((ringDraw s f1 p1).1.angles).map Real.cos
    ∧ (ringDraw s f1 p1).1.y_unit = ((ringDraw s f1 p1).1.angles).map Real.sin := by
  refine ⟨by simp only [ringDraw], by simp only [ringDraw], ?_,
    by simp only [ringDraw], by simp only [ringDraw]⟩
  intro a _ h0 h1
  exact wrap360_eq_self h0 h1

/-- A concrete one-band ring-visualizer state: angle `0`, speed `5`. -/
noncomputable def sampleRingState : RingVizState :=
  { width := 800
    height := 600
    bands := 1
    line_width := 10
    max_line_length := 100
    smooth_factor := 1/2
    radius := 100
    max_radius := 200
    speed := 5
    step := 0
    angles := [0]
    y_unit := [0]
    x_unit := [1]
    fft := [0]
    pow := 0 }

/-- Witness for `ringVisualizer_angle_update` on a concrete in-range state:
a single band at angle `0` with speed `5` advances to exactly `5`. -/
theorem ringVisualizer_angle_update_witness :
    ((0 : ℝ) ∈ sampleRingState.angles
      ∧ (0 : ℝ) ≤ 0 + sampleRingState.speed
      ∧ (0 : ℝ) + sampleRingState.speed < 360)
    ∧ wrap360 ((0 : ℝ) + sampleRingState.speed) = 0 + sampleRingState.speed :=
  ⟨⟨by simp [sampleRingState], by norm_num [sampleRingState],
      by norm_num [sampleRingState]⟩,
    (ringVisualizer_angle_update sampleRingState [] [] 0 0).2.2.1 0
      (by simp [sampleRingState]) (by norm_num [sampleRingState])
      (by norm_num [sampleRingState])⟩

end Sarabanda
